import Mathlib

/-!
# Verification of `pydocsearch`

A shallow embedding of `pydocsearch.py`, a small module that builds a
keyword → URL index from the Python documentation's `genindex-all.html`
page and answers single-keyword lookups.

Python dictionaries are modelled as insertion-ordered association lists
(`dictInsert` updates an existing key in place, otherwise appends), scores
(Python floats produced by `1 / math.sqrt(len) + weight`) are modelled as
real numbers, and the two regular expressions of the source
(`href="(.+?#.+?)">([^<]+)</a>` with `re.findall`, and `(\w+)\.html` with
`re.search`) are implemented as explicit character-level scanners with the
same leftmost / lazy / greedy semantics.  The network fetch is external:
`load_from_text` receives the fetched markup as an argument.
-/

set_option autoImplicit false

namespace Pydoc

/-- Ordered-dictionary lookup on an association list
(Python `d[k]` / `d.get(k)`). -/
def dictLookup {α : Type} : List (String × α) → String → Option α
  | [], _ => none
  | (k', v') :: rest, k => if k' = k then some v' else dictLookup rest k

/-- Ordered-dictionary update `d[k] = v`: an existing key keeps its
position, a new key is appended at the end (Python dict semantics). -/
def dictInsert {α : Type} : List (String × α) → String → α → List (String × α)
  | [], k, v => [(k, v)]
  | (k', v') :: rest, k, v =>
    if k' = k then (k', v) :: rest else (k', v') :: dictInsert rest k v

/-- Python `str.lower()` (ASCII range, like core `Char.toLower`), written
as an explicit map over the character list. -/
def lowerStr (s : String) : String := String.mk (s.data.map Char.toLower)

/-- `startsWithL pat cs`: `cs` begins with the pattern `pat`. -/
def startsWithL : List Char → List Char → Bool
  | [], _ => true
  | _ :: _, [] => false
  | p :: ps, c :: cs => p = c && startsWithL ps cs

/-- Python's `\w` on ASCII input: letters, digits and underscore. -/
def isWordChar (c : Char) : Bool := c.isAlphanum || c = '_'

/-- `re.split(r'\W', s)` on a character list: cut at every non-word
character, keeping empty pieces (Python keeps them too). -/
def splitNonWordL : List Char → List (List Char)
  | [] => [[]]
  | c :: cs =>
    if isWordChar c then
      match splitNonWordL cs with
      | [] => [[c]]
      | h :: t => (c :: h) :: t
    else [] :: splitNonWordL cs

/-- `re.split(r'\W', s)` on a string. -/
def splitNonWord (s : String) : List String :=
  (splitNonWordL s.data).map String.mk

/-- `'.'.join(parts)`. -/
def joinDot (parts : List String) : String :=
  String.intercalate "." parts

/-- The word-character run of the leftmost match of `(\w+)\.html`
(`re.search`): at each start position try the maximal word run (shorter
runs cannot match, since `.` is not a word character) followed by the
literal `.html`; on failure advance one character. -/
def pageSearchRun : List Char → Option (List Char)
  | [] => none
  | c :: cs =>
    let run := (c :: cs).takeWhile isWordChar
    let rest := (c :: cs).dropWhile isWordChar
    if run.isEmpty then pageSearchRun cs
    else if startsWithL ".html".data rest then some run
    else pageSearchRun cs

/-- Group 0 of `re.search(r'\w+\.html', doc_link)`, or `''` when there is
no match (`page_re.group(0) if page_re is not None else ''`). -/
def page0 (doc_link : String) : String :=
  match pageSearchRun doc_link.data with
  | some run => String.mk (run ++ '.' :: 'h' :: 't' :: 'm' :: 'l' :: [])
  | none => ""

/-- Group 1 of `re.search(r'(\w+)\.html', url)` (the page name without
its `.html` suffix), used by `load_from` to key the page entry. -/
def pageSearch1 (url : String) : Option String :=
  (pageSearchRun url.data).map String.mk

/-- `PydocIndexEntry.weights`: the fixed page-popularity table. -/
def weights : List (String × ℝ) :=
  [("functions.html", 1), ("glossary.html", 1), ("stdtypes.html", 0.9),
   ("string.html", 0.8), ("re.html", 0.7), ("datetime.html", 0.6),
   ("builtins.html", 0.5), ("exceptions.html", 0.1),
   ("datamodel.html", 0.8), ("operator.html", 0.8)]

/-- `visit_weight = self.weights.get(page, 0)` for `page = page0 doc_link`. -/
noncomputable def visit_weight (doc_link : String) : ℝ :=
  (dictLookup weights (page0 doc_link)).getD 0

/-- `PydocIndexEntry.link_weight`:
`1 / math.sqrt(len(doc_link)) + visit_weight`.  On the empty string
Python raises `ZeroDivisionError`; here `Real.sqrt 0 = 0` makes the
expression total, and `link_weight_checked` (below) records the partiality,
shown unreachable during a build in the safety theorem for claim C10. -/
noncomputable def link_weight (doc_link : String) : ℝ :=
  1 / Real.sqrt (doc_link.length : ℝ) + visit_weight doc_link

/-- `link_weight` with its Python partiality made explicit: `none` exactly
when `1 / math.sqrt(len(doc_link))` would raise `ZeroDivisionError`. -/
noncomputable def link_weight_checked (doc_link : String) : Option ℝ :=
  if doc_link.length = 0 then none else some (link_weight doc_link)

/-- `PydocIndexEntry`: per-keyword accumulator.  `links` is the Python
dict mapping each registered link to its score. -/
structure PydocIndexEntry where
  keyword : String
  links : List (String × ℝ)
  best_link : Option String

/-- `PydocIndexEntry.__init__`. -/
def mkEntry (keyword : String) : PydocIndexEntry :=
  ⟨keyword, [], none⟩

/-- `PydocIndexEntry.register`: store the link's weight, then promote the
link to `best_link` when no best exists or the new weight is strictly
greater than the current best's stored weight.  The `.getD 0` default is
unreachable (Python would raise `KeyError` there): `best_link` is always a
key of `links`, see the invariant theorem for claim C1. -/
noncomputable def PydocIndexEntry.register
    (e : PydocIndexEntry) (doc_link : String) : PydocIndexEntry :=
  let w := link_weight doc_link
  let links := dictInsert e.links doc_link w
  match e.best_link with
  | none => ⟨e.keyword, links, some doc_link⟩
  | some b =>
    if w > (dictLookup links b).getD 0
    then ⟨e.keyword, links, some doc_link⟩
    else ⟨e.keyword, links, some b⟩

/-- `PydocIndex`: base documentation URL plus the keyword → entry dict. -/
structure PydocIndex where
  doc_url : String
  index : List (String × PydocIndexEntry)

/-- `PydocIndex.get_or_create_entry(keyword).register(doc_link)`, written
as one state update: the keyword is lower-cased, the entry is created when
missing, registered into, and stored back. -/
noncomputable def registerUnder
    (idx : PydocIndex) (keyword doc_link : String) : PydocIndex :=
  let k := lowerStr keyword
  let e := match dictLookup idx.index k with
    | some e => e
    | none => mkEntry k
  ⟨idx.doc_url, dictInsert idx.index k (e.register doc_link)⟩

/-- The override table local to `PydocIndex.search`. -/
def hardcoded : List (String × String) := [("pip", "installing/index.html")]

/-- `PydocIndex.search`: the override table is consulted with the raw
keyword; only the index lookup lower-cases.  A missing key (Python
`KeyError`) yields `none`.  An entry whose `best_link` is `None` would
make Python raise `TypeError` on `self.doc_url + None`; that case is
unreachable for built indexes (every entry is registered into at creation)
and is mapped to `none` here. -/
def PydocIndex.search (self : PydocIndex) (keyword : String) : Option String :=
  match dictLookup hardcoded keyword with
  | some page => some (self.doc_url ++ page)
  | none =>
    match dictLookup self.index (lowerStr keyword) with
    | none => none
    | some entry => entry.best_link.map (fun b => self.doc_url ++ b)

/-! ## The anchor scanner

`re.findall('href="(.+?#.+?)">([^<]+)</a>', text)` with Python semantics:
leftmost non-overlapping matches; `.` does not match a newline; the two
lazy groups prefer the shortest expansion, backtracking outward; the
greedy `[^<]+` can only stop at the first `<` (its characters cannot
overlap the literal `</a>`). -/

/-- Match `([^<]+)</a>` at the head of `cs`: the maximal nonempty run of
non-`<` characters followed by the literal `</a>`; returns the captured
text and the remainder after `</a>`. -/
def matchTail (cs : List Char) : Option (List Char × List Char) :=
  let txt := cs.takeWhile (fun c => c ≠ '<')
  let rest := cs.dropWhile (fun c => c ≠ '<')
  if txt.isEmpty then none
  else if startsWithL "</a>".data rest then some (txt, rest.drop 4)
  else none

/-- Match `(.+?)">([^<]+)</a>` at the head of `cs` (the part after the
`#`): lazily extend the second group one non-newline character at a time,
at each step first trying to close with `">` and the tail.  Returns the
group, the captured text and the remainder. -/
def tryB : List Char → Option (List Char × List Char × List Char)
  | [] => none
  | c :: cs =>
    if c = '\n' then none
    else
      match cs with
      | '"' :: '>' :: cs' =>
        (match matchTail cs' with
         | some (txt, rest) => some ([c], txt, rest)
         | none => (tryB cs).map (fun r => (c :: r.1, r.2.1, r.2.2)))
      | _ => (tryB cs).map (fun r => (c :: r.1, r.2.1, r.2.2))

/-- Match `(.+?#.+?)">([^<]+)</a>` at the head of `cs`: lazily extend the
first group, at each step first trying the next character as the literal
`#` (with `tryB` for the rest).  Returns the pre-`#` part, the post-`#`
part, the captured text and the remainder. -/
def tryA : List Char → Option (List Char × List Char × List Char × List Char)
  | [] => none
  | c :: cs =>
    if c = '\n' then none
    else
      match cs with
      | '#' :: cs' =>
        (match tryB cs' with
         | some (b, txt, rest) => some ([c], b, txt, rest)
         | none => (tryA cs).map (fun r => (c :: r.1, r.2.1, r.2.2.1, r.2.2.2)))
      | _ => (tryA cs).map (fun r => (c :: r.1, r.2.1, r.2.2.1, r.2.2.2))

/-- Try the whole pattern at the head of `cs`; on success return group 1
(the href value), group 2 (the anchor text) and the remainder. -/
def matchAnchor (cs : List Char) :
    Option (List Char × List Char × List Char) :=
  if startsWithL "href=\"".data cs then
    (tryA (cs.drop 6)).map (fun r => (r.1 ++ '#' :: r.2.1, r.2.2.1, r.2.2.2))
  else none

/-- One `re.findall` scan: try a match at every position, emit each match
and resume after it.  The fuel is an upper bound on the number of steps;
each step either drops one character or consumes a whole match. -/
def findallAux : Nat → List Char → List (List Char × List Char)
  | 0, _ => []
  | _ + 1, [] => []
  | n + 1, c :: cs =>
    match matchAnchor (c :: cs) with
    | some (link, txt, rest) => (link, txt) :: findallAux n rest
    | none => findallAux n cs

/-- `re.findall('href="(.+?#.+?)">([^<]+)</a>', s)`. -/
def findall (s : String) : List (String × String) :=
  (findallAux s.data.length s.data).map (fun r => (String.mk r.1, String.mk r.2))

/-- `url, anchor = link.split('#')`: succeeds exactly when the link
contains a single `#` (otherwise Python raises `ValueError` while
unpacking), returning the parts before and after it. -/
def splitHash (link : String) : Option (String × String) :=
  let pre := link.data.takeWhile (fun c => c ≠ '#')
  match link.data.dropWhile (fun c => c ≠ '#') with
  | '#' :: rest =>
    if rest.contains '#' then none else some (String.mk pre, String.mk rest)
  | _ => none

/-- The keys derived from an anchor:
`['.'.join(keywords[-i-1:]) for i, keywords in
enumerate([anchor_chunks] * len(anchor_chunks))]`, i.e. every suffix of
the `\W`-split chunk list, joined by `.`, shortest first. -/
def suffixKeys (anchor : String) : List String :=
  let anchor_chunks := splitNonWord anchor
  (List.range anchor_chunks.length).map
    (fun i => joinDot (anchor_chunks.drop (anchor_chunks.length - (i + 1))))

/-- The body of the `for (link, text) in links:` loop of
`PydocIndex.load_from`: split the href on `#` (a `ValueError` aborts the
build), register the link under every suffix key of the anchor, register
the page name (when the url part matches `(\w+)\.html`) pointing at the
fragment-free url, and register the visible text pointing at the link. -/
noncomputable def processLink
    (idx : PydocIndex) (link text : String) : Option PydocIndex :=
  match splitHash link with
  | none => none
  | some (url, anchor) =>
    let idx1 := (suffixKeys anchor).foldl
      (fun ix chunks => registerUnder ix chunks link) idx
    let idx2 := match pageSearch1 url with
      | some name => registerUnder idx1 name url
      | none => idx1
    some (registerUnder idx2 text link)

/-- The fold of `processLink` over the parsed anchor list. -/
noncomputable def loadLoop :
    List (String × String) → PydocIndex → Option PydocIndex
  | [], idx => some idx
  | (link, text) :: rest, idx =>
    match processLink idx link text with
    | none => none
    | some idx' => loadLoop rest idx'

/-- `PydocIndex.load_from` minus the network fetch: build an index from
the base URL and the already-fetched markup of `genindex-all.html`.
`none` models the build raising (the `ValueError` of the `#`-split). -/
noncomputable def load_from_text
    (doc_url genindex_text : String) : Option PydocIndex :=
  loadLoop (findall genindex_text) ⟨doc_url, []⟩

/-- The invariant maintained by `register`: every stored score is the
weight of its link; `best_link` is unset only while no candidate exists,
and when set it is a stored key whose score bounds every stored score. -/
def EntryInv (e : PydocIndexEntry) : Prop :=
  (∀ x s, dictLookup e.links x = some s → s = link_weight x) ∧
  (e.best_link = none → e.links = []) ∧
  (∀ b, e.best_link = some b →
    dictLookup e.links b = some (link_weight b) ∧
    ∀ x s, dictLookup e.links x = some s → s ≤ link_weight b)

/-- Every entry of the index has `best_link` set (true of every built
index, since an entry is registered into as soon as it is created). -/
def IndexWF (idx : PydocIndex) : Prop :=
  ∀ k e, dictLookup idx.index k = some e → ∃ b, e.best_link = some b

/-- Every entry of the index has `link` as its best link (true while the
build has only ever registered `link`). -/
def AllBest (idx : PydocIndex) (link : String) : Prop :=
  ∀ k e, dictLookup idx.index k = some e → e.best_link = some link

/-- The page-name key derived from the url part of an anchor (when any)
collides with none of the anchor's suffix keys. -/
def pageKeyFresh (url anchor : String) : Bool :=
  match pageSearch1 url with
  | none => true
  | some name => (suffixKeys anchor).all (fun k => lowerStr k != lowerStr name)

/-! ## Basic lemmas -/

theorem lowerChar_idem (c : Char) :
    Char.toLower (Char.toLower c) = Char.toLower c := by
  unfold Char.toLower
  by_cases h : c.toNat ≥ 65 ∧ c.toNat ≤ 90
  · rw [if_pos h]
    have hv : Nat.isValidChar (c.toNat + 32) := by left; omega
    have ht : (Char.ofNat (c.toNat + 32)).toNat = c.toNat + 32 := by
      unfold Char.ofNat
      rw [dif_pos hv]
      rfl
    rw [if_neg]
    rw [ht]; omega
  · rw [if_neg h, if_neg h]

theorem lowerStr_idem (s : String) : lowerStr (lowerStr s) = lowerStr s := by
  unfold lowerStr
  congr 1
  rw [List.map_map]
  exact List.map_congr_left (fun c _ => lowerChar_idem c)

theorem dictLookup_dictInsert {α : Type} (m : List (String × α))
    (k k' : String) (v : α) :
    dictLookup (dictInsert m k v) k' =
      if k = k' then some v else dictLookup m k' := by
  induction m with
  | nil => by_cases h : k = k' <;> simp [dictInsert, dictLookup, h]
  | cons p rest ih =>
    obtain ⟨k₀, v₀⟩ := p
    by_cases h0 : k₀ = k
    · subst h0
      by_cases h : k₀ = k' <;> simp [dictInsert, dictLookup, h]
    · by_cases h : k₀ = k'
      · have hkk : k ≠ k' := fun he => h0 (h.trans he.symm)
        simp [dictInsert, dictLookup, h0, h, hkk, Ne.symm hkk]
      · simp [dictInsert, dictLookup, h0, h, ih]

theorem dictLookup_mem {α : Type} {m : List (String × α)} {k : String} {v : α}
    (h : dictLookup m k = some v) : (k, v) ∈ m := by
  induction m with
  | nil => simp [dictLookup] at h
  | cons p rest ih =>
    obtain ⟨k₀, v₀⟩ := p
    by_cases h0 : k₀ = k
    · subst h0
      simp [dictLookup] at h
      simp [h]
    · simp [dictLookup, h0] at h
      simp [ih h]

theorem dictInsert_self {α : Type} {m : List (String × α)} {k : String} {v : α}
    (h : dictLookup m k = some v) : dictInsert m k v = m := by
  induction m with
  | nil => simp [dictLookup] at h
  | cons p rest ih =>
    obtain ⟨k₀, v₀⟩ := p
    by_cases h0 : k₀ = k
    · subst h0
      simp [dictLookup] at h
      simp [dictInsert, h]
    · simp [dictLookup, h0] at h
      simp [dictInsert, h0, ih h]

/-! ## Lemmas about `register` -/

theorem register_links (e : PydocIndexEntry) (l : String) :
    (e.register l).links = dictInsert e.links l (link_weight l) := by
  unfold PydocIndexEntry.register
  cases e.best_link with
  | none => rfl
  | some b => by_cases h : link_weight l >
      (dictLookup (dictInsert e.links l (link_weight l)) b).getD 0 <;>
      simp [h]

theorem register_keyword (e : PydocIndexEntry) (l : String) :
    (e.register l).keyword = e.keyword := by
  unfold PydocIndexEntry.register
  cases e.best_link with
  | none => rfl
  | some b => by_cases h : link_weight l >
      (dictLookup (dictInsert e.links l (link_weight l)) b).getD 0 <;>
      simp [h]

theorem register_best_none {e : PydocIndexEntry} (l : String)
    (h : e.best_link = none) :
    e.register l =
      ⟨e.keyword, dictInsert e.links l (link_weight l), some l⟩ := by
  unfold PydocIndexEntry.register
  rw [h]

theorem register_best_some {e : PydocIndexEntry} {b : String} (l : String)
    (h : e.best_link = some b) :
    e.register l =
      if link_weight l >
          (dictLookup (dictInsert e.links l (link_weight l)) b).getD 0
      then ⟨e.keyword, dictInsert e.links l (link_weight l), some l⟩
      else ⟨e.keyword, dictInsert e.links l (link_weight l), some b⟩ := by
  unfold PydocIndexEntry.register
  rw [h]

theorem register_best_isSome (e : PydocIndexEntry) (l : String) :
    ∃ b, (e.register l).best_link = some b := by
  cases h : e.best_link with
  | none => exact ⟨l, by rw [register_best_none l h]⟩
  | some b =>
    rw [register_best_some l h]
    by_cases hgt : link_weight l >
        (dictLookup (dictInsert e.links l (link_weight l)) b).getD 0
    · exact ⟨l, by rw [if_pos hgt]⟩
    · exact ⟨b, by rw [if_neg hgt]⟩

/-- Re-registering the link that is already best keeps it best. -/
theorem register_best_same {e : PydocIndexEntry} {l : String}
    (h : e.best_link = some l) : (e.register l).best_link = some l := by
  rw [register_best_some l h]
  by_cases hgt : link_weight l >
      (dictLookup (dictInsert e.links l (link_weight l)) l).getD 0 <;>
    simp [hgt]

/-! ## Claim C8 -/

/-- C8: for every index, whatever its contents, `search "pip"` returns the
hardcoded installer URL `doc_url ++ "installing/index.html"`, without
consulting the built mapping. -/
theorem search_pip_override (idx : PydocIndex) :
    idx.search "pip" = some (idx.doc_url ++ "installing/index.html") := by
  rfl

/-! ## Claim C4

The claim says `search` lower-cases the keyword before consulting the
override table.  It does not: the raw keyword is compared against the
override table, and only the built-mapping lookup lower-cases.  On an
empty index, `search "PIP"` is `none` while `search "pip"` returns the
override URL. -/

/-- C4 counterexample: lower-casing does not happen before the override
table is consulted: `search "PIP"` misses the `pip` override, so
`lookup(k) = lookup(lower(k))` fails at `k = "PIP"`. -/
theorem search_override_not_normalized :
    (PydocIndex.mk "D/" []).search "PIP" = none ∧
      (PydocIndex.mk "D/" []).search (lowerStr "PIP") =
        some "D/installing/index.html" := by
  constructor <;> rfl

/-- C4 amended: `search` compares the raw keyword against the override
table and lower-cases only for the built-mapping lookup; consequently
`lookup(k) = lookup(lower(k))` holds for every keyword whose lower-casing
is not the override key `"pip"`. -/
theorem search_toLower (idx : PydocIndex) (k : String)
    (h : lowerStr k ≠ "pip") :
    idx.search k = idx.search (lowerStr k) := by
  have hk : k ≠ "pip" := by
    intro he
    exact h (by rw [he]; rfl)
  unfold PydocIndex.search
  have h1 : dictLookup hardcoded k = none := by
    simp [hardcoded, dictLookup]
    exact fun he => hk he.symm
  have h2 : dictLookup hardcoded (lowerStr k) = none := by
    simp [hardcoded, dictLookup]
    exact fun he => h he.symm
  rw [h1, h2, lowerStr_idem]

/-- C4 witness: at `k = "Lambda"` (lower-casing `"lambda"`), lookup on an
empty index agrees with lookup of the lower-cased keyword. -/
theorem search_toLower_witness :
    (PydocIndex.mk "D/" []).search "Lambda" =
      (PydocIndex.mk "D/" []).search (lowerStr "Lambda") :=
  search_toLower (PydocIndex.mk "D/" []) "Lambda" (by decide)

/-! ## Claims C5 and C6: properties of the scoring function -/

/-- C5: `link_weight` is monotonically non-increasing in link length, all
else equal: for two non-empty links with the same page-popularity weight,
the shorter link scores at least as high as the longer one. -/
theorem link_weight_length_mono (l1 l2 : String)
    (h1 : l1.length ≠ 0) (h2 : l2.length ≠ 0)
    (hv : visit_weight l1 = visit_weight l2)
    (hlen : l1.length ≤ l2.length) :
    link_weight l2 ≤ link_weight l1 := by
  unfold link_weight
  rw [← hv]
  have hs1 : (0 : ℝ) < Real.sqrt (l1.length : ℝ) :=
    Real.sqrt_pos.2 (by exact_mod_cast Nat.pos_of_ne_zero h1)
  have hs : Real.sqrt (l1.length : ℝ) ≤ Real.sqrt (l2.length : ℝ) :=
    Real.sqrt_le_sqrt (by exact_mod_cast hlen)
  have := one_div_le_one_div_of_le hs1 hs
  linarith

/-- C5 witness: `"ab"` scores at most `"a"` (equal page weights). -/
theorem link_weight_length_mono_witness :
    link_weight "ab" ≤ link_weight "a" :=
  link_weight_length_mono "a" "ab" (by decide) (by decide) rfl (by decide)

/-- Every weight of the popularity table is positive. -/
theorem weights_pos {k : String} {w : ℝ}
    (h : dictLookup weights k = some w) : 0 < w := by
  have hm := dictLookup_mem h
  simp only [weights, List.mem_cons, List.not_mem_nil, or_false,
    Prod.mk.injEq] at hm
  rcases hm with ⟨_, rfl⟩ | ⟨_, rfl⟩ | ⟨_, rfl⟩ | ⟨_, rfl⟩ | ⟨_, rfl⟩ |
    ⟨_, rfl⟩ | ⟨_, rfl⟩ | ⟨_, rfl⟩ | ⟨_, rfl⟩ | ⟨_, rfl⟩ <;> norm_num

/-- C6: of two equal-length, non-empty links, one whose page is in the
popularity table scores strictly higher than one whose page is absent. -/
theorem link_weight_popularity (l1 l2 : String)
    (hlen : l1.length = l2.length) (h0 : l1.length ≠ 0)
    (hp : (dictLookup weights (page0 l1)).isSome = true)
    (ha : dictLookup weights (page0 l2) = none) :
    link_weight l2 < link_weight l1 := by
  obtain ⟨w, hw⟩ := Option.isSome_iff_exists.1 hp
  have hpos := weights_pos hw
  unfold link_weight visit_weight
  rw [hw, ha, hlen]
  simp only [Option.getD_some, Option.getD_none]
  linarith

/-- C6 witness: `"re.html"` (page in the table) strictly outscores the
equal-length `"aa.html"` (page absent from the table). -/
theorem link_weight_popularity_witness :
    link_weight "aa.html" < link_weight "re.html" :=
  link_weight_popularity "re.html" "aa.html" (by decide) (by decide) rfl rfl

/-! ## The entry invariant (claims C1 and C7) -/

theorem entryInv_mkEntry (k : String) : EntryInv (mkEntry k) := by
  refine ⟨?_, fun _ => rfl, ?_⟩
  · intro x s hx
    simp [mkEntry, dictLookup] at hx
  · intro b hb
    simp [mkEntry] at hb

theorem entryInv_register {e : PydocIndexEntry} (l : String)
    (he : EntryInv e) : EntryInv (e.register l) := by
  obtain ⟨hsc, hnone, hsome⟩ := he
  have hlinks := register_links e l
  have hsc' : ∀ x s, dictLookup (e.register l).links x = some s →
      s = link_weight x := by
    intro x s hx
    rw [hlinks, dictLookup_dictInsert] at hx
    by_cases hxl : l = x
    · rw [if_pos hxl] at hx
      subst hxl
      exact (Option.some.inj hx).symm
    · rw [if_neg hxl] at hx
      exact hsc x s hx
  refine ⟨hsc', ?_, ?_⟩
  · intro hn
    obtain ⟨b, hb⟩ := register_best_isSome e l
    rw [hn] at hb
    cases hb
  · intro b' hb'
    have hmem : dictLookup (e.register l).links b' =
        some (link_weight b') := by
      cases hb : e.best_link with
      | none =>
        rw [register_best_none l hb] at hb'
        have hbl' : l = b' := Option.some.inj hb'
        subst hbl'
        rw [hlinks, dictLookup_dictInsert, if_pos rfl]
      | some b =>
        rw [register_best_some l hb] at hb'
        by_cases hgt : link_weight l >
            (dictLookup (dictInsert e.links l (link_weight l)) b).getD 0
        · rw [if_pos hgt] at hb'
          have hbl' : l = b' := Option.some.inj hb'
          subst hbl'
          rw [hlinks, dictLookup_dictInsert, if_pos rfl]
        · rw [if_neg hgt] at hb'
          have hbb' : b = b' := Option.some.inj hb'
          subst hbb'
          obtain ⟨hbl, _⟩ := hsome b hb
          rw [hlinks, dictLookup_dictInsert]
          by_cases hlb : l = b
          · rw [if_pos hlb, hlb]
          · rw [if_neg hlb]
            exact hbl
    refine ⟨hmem, ?_⟩
    intro x s hx
    have hsx : s = link_weight x := hsc' x s hx
    subst hsx
    cases hb : e.best_link with
    | none =>
      -- fresh best: the only stored link is `l` itself
      have hnil := hnone hb
      rw [register_best_none l hb] at hb'
      have hbl' : l = b' := Option.some.inj hb'
      subst hbl'
      rw [hlinks, hnil, dictLookup_dictInsert] at hx
      by_cases hxl : l = x
      · subst hxl; exact le_refl _
      · rw [if_neg hxl] at hx
        simp [dictLookup] at hx
    | some b =>
      obtain ⟨hbl, hbd⟩ := hsome b hb
      rw [register_best_some l hb] at hb'
      by_cases hlb : l = b
      · -- re-registering the current best: the weight is unchanged
        subst hlb
        have hgd : (dictLookup (dictInsert e.links l (link_weight l)) l).getD 0
            = link_weight l := by
          rw [dictLookup_dictInsert, if_pos rfl, Option.getD_some]
        rw [hgd] at hb'
        rw [if_neg (lt_irrefl _)] at hb'
        have hbb' : l = b' := Option.some.inj hb'
        subst hbb'
        rw [hlinks, dictLookup_dictInsert] at hx
        by_cases hxl : l = x
        · subst hxl; exact le_refl _
        · rw [if_neg hxl] at hx
          exact hbd x _ hx
      · have hgd : (dictLookup (dictInsert e.links l (link_weight l)) b).getD 0
            = link_weight b := by
          rw [dictLookup_dictInsert, if_neg hlb, hbl, Option.getD_some]
        rw [hgd] at hb'
        rw [hlinks, dictLookup_dictInsert] at hx
        by_cases hgt : link_weight l > link_weight b
        · rw [if_pos hgt] at hb'
          have hbl' : l = b' := Option.some.inj hb'
          subst hbl'
          by_cases hxl : l = x
          · subst hxl; exact le_refl _
          · rw [if_neg hxl] at hx
            exact le_of_lt (lt_of_le_of_lt (hbd x _ hx) hgt)
        · rw [if_neg hgt] at hb'
          have hbb' : b = b' := Option.some.inj hb'
          subst hbb'
          by_cases hxl : l = x
          · rw [if_pos hxl] at hx
            have : link_weight l = link_weight x := by rw [hxl]
            rw [← this]
            exact not_lt.1 hgt
          · rw [if_neg hxl] at hx
            exact hbd x _ hx

theorem entryInv_foldl (ls : List String) :
    ∀ e, EntryInv e → EntryInv (ls.foldl PydocIndexEntry.register e) := by
  induction ls with
  | nil => exact fun e he => he
  | cons x t ih =>
    intro e he
    exact ih _ (entryInv_register x he)

theorem foldl_register_isSome (t : List String) :
    ∀ e : PydocIndexEntry, e.best_link.isSome →
      ((t.foldl PydocIndexEntry.register e).best_link).isSome := by
  induction t with
  | nil => exact fun e h => h
  | cons x t ih =>
    intro e _
    simp only [List.foldl_cons]
    apply ih
    obtain ⟨b, hb⟩ := register_best_isSome e x
    rw [hb]
    rfl

theorem foldl_register_best (k : String) (ls : List String) (h : ls ≠ []) :
    ∃ b, (ls.foldl PydocIndexEntry.register (mkEntry k)).best_link = some b := by
  cases ls with
  | nil => exact absurd rfl h
  | cons x t =>
    simp only [List.foldl_cons]
    have h1 : ((mkEntry k).register x).best_link.isSome := by
      obtain ⟨b, hb⟩ := register_best_isSome (mkEntry k) x
      rw [hb]
      rfl
    exact Option.isSome_iff_exists.1 (foldl_register_isSome t _ h1)

/-- Every link registered along the way stays in the dict with its
weight as score. -/
theorem foldl_register_lookup (ls : List String) :
    ∀ (e : PydocIndexEntry) (x : String),
      x ∈ ls ∨ dictLookup e.links x = some (link_weight x) →
      dictLookup (ls.foldl PydocIndexEntry.register e).links x =
        some (link_weight x) := by
  induction ls with
  | nil =>
    intro e x h
    cases h with
    | inl h => cases h
    | inr h => exact h
  | cons y t ih =>
    intro e x h
    simp only [List.foldl_cons]
    apply ih
    by_cases hyx : y = x
    · subst hyx
      right
      rw [register_links, dictLookup_dictInsert, if_pos rfl]
    · cases h with
      | inl h =>
        cases h with
        | head => exact absurd rfl hyx
        | tail _ h => exact Or.inl h
      | inr h =>
        right
        rw [register_links, dictLookup_dictInsert, if_neg hyx]
        exact h

/-! ## Claim C1 -/

/-- C1: after any nonempty sequence of `register` calls on a fresh entry,
`best_link` is a key of the candidate dict and its stored score
(= its weight) is greater or equal to every stored candidate score;
moreover, when two distinct links tie in score, the first registered one
remains `best_link` (the update uses a strict `>`). -/
theorem best_link_invariant (k : String) (ls : List String) (h : ls ≠ []) :
    (∃ b, (ls.foldl PydocIndexEntry.register (mkEntry k)).best_link = some b ∧
      dictLookup (ls.foldl PydocIndexEntry.register (mkEntry k)).links b =
        some (link_weight b) ∧
      ∀ x s,
        dictLookup (ls.foldl PydocIndexEntry.register (mkEntry k)).links x =
          some s → s ≤ link_weight b) ∧
    (∀ k' l1 l2, l1 ≠ l2 → link_weight l1 = link_weight l2 →
      (([l1, l2] : List String).foldl PydocIndexEntry.register
          (mkEntry k')).best_link = some l1) := by
  constructor
  · obtain ⟨b, hb⟩ := foldl_register_best k ls h
    obtain ⟨_, _, hsome⟩ := entryInv_foldl ls (mkEntry k) (entryInv_mkEntry k)
    obtain ⟨hbl, hbd⟩ := hsome b hb
    exact ⟨b, hb, hbl, hbd⟩
  · intro k' l1 l2 hne hweq
    simp only [List.foldl_cons, List.foldl_nil]
    have h1 : (mkEntry k').register l1 =
        ⟨k', [(l1, link_weight l1)], some l1⟩ := by
      rw [register_best_none l1 rfl]
      rfl
    rw [h1]
    have hb1 : (⟨k', [(l1, link_weight l1)], some l1⟩ :
        PydocIndexEntry).best_link = some l1 := rfl
    rw [register_best_some l2 hb1]
    have hgd : (dictLookup
        (dictInsert [(l1, link_weight l1)] l2 (link_weight l2)) l1).getD 0 =
        link_weight l1 := by
      rw [dictLookup_dictInsert, if_neg (Ne.symm hne)]
      simp [dictLookup]
    rw [hgd, ← hweq, if_neg (lt_irrefl _)]

/-- C1 witness at the one-element registration sequence `["a"]`. -/
theorem best_link_invariant_witness :
    (∃ b, ((["a"] : List String).foldl PydocIndexEntry.register
        (mkEntry "x")).best_link = some b ∧
      dictLookup ((["a"] : List String).foldl PydocIndexEntry.register
          (mkEntry "x")).links b = some (link_weight b) ∧
      ∀ x s,
        dictLookup ((["a"] : List String).foldl PydocIndexEntry.register
            (mkEntry "x")).links x = some s → s ≤ link_weight b) ∧
    (∀ k' l1 l2, l1 ≠ l2 → link_weight l1 = link_weight l2 →
      (([l1, l2] : List String).foldl PydocIndexEntry.register
          (mkEntry k')).best_link = some l1) :=
  best_link_invariant "x" ["a"] (by decide)

/-! ## Claim C7 -/

/-- C7: re-registering a link that is already registered changes neither
`best_link` nor any candidate's stored score. -/
theorem register_idempotent (k l : String) (ls : List String) (h : l ∈ ls) :
    ((ls.foldl PydocIndexEntry.register (mkEntry k)).register l).best_link =
      (ls.foldl PydocIndexEntry.register (mkEntry k)).best_link ∧
    ((ls.foldl PydocIndexEntry.register (mkEntry k)).register l).links =
      (ls.foldl PydocIndexEntry.register (mkEntry k)).links := by
  set E := ls.foldl PydocIndexEntry.register (mkEntry k) with hE
  have hlook : dictLookup E.links l = some (link_weight l) :=
    foldl_register_lookup ls (mkEntry k) l (Or.inl h)
  have hins : dictInsert E.links l (link_weight l) = E.links :=
    dictInsert_self hlook
  have hlinks : (E.register l).links = E.links := by
    rw [register_links, hins]
  refine ⟨?_, hlinks⟩
  have hne : ls ≠ [] := by
    intro he
    rw [he] at h
    cases h
  obtain ⟨b, hb⟩ := foldl_register_best k ls hne
  obtain ⟨_, _, hsome⟩ := entryInv_foldl ls (mkEntry k) (entryInv_mkEntry k)
  obtain ⟨hbl, hbd⟩ := hsome b hb
  have hle : link_weight l ≤ link_weight b := hbd l _ hlook
  have hreg := register_best_some (e := E) l hb
  rw [hins, hbl, Option.getD_some, if_neg (not_lt.2 hle)] at hreg
  rw [hreg, hb]

/-- C7 witness: re-registering `"a"` after the sequence `["a"]`. -/
theorem register_idempotent_witness :
    (((["a"] : List String).foldl PydocIndexEntry.register
        (mkEntry "x")).register "a").best_link =
      ((["a"] : List String).foldl PydocIndexEntry.register
        (mkEntry "x")).best_link ∧
    (((["a"] : List String).foldl PydocIndexEntry.register
        (mkEntry "x")).register "a").links =
      ((["a"] : List String).foldl PydocIndexEntry.register
        (mkEntry "x")).links :=
  register_idempotent "x" "a" ["a"] (by simp)

/-! ## Claim C3: build totality and the `ValueError` on multiple `#` -/

theorem processLink_isSome {idx : PydocIndex} {l t : String}
    (h : (splitHash l).isSome = true) :
    ∃ idx', processLink idx l t = some idx' := by
  obtain ⟨⟨u, a⟩, hs⟩ := Option.isSome_iff_exists.1 h
  unfold processLink
  rw [hs]
  exact ⟨_, rfl⟩

theorem loadLoop_total (prs : List (String × String)) :
    ∀ idx : PydocIndex, (∀ p ∈ prs, (splitHash p.1).isSome = true) →
      ∃ idx', loadLoop prs idx = some idx' := by
  induction prs with
  | nil => exact fun idx _ => ⟨idx, rfl⟩
  | cons p t ih =>
    intro idx hp
    obtain ⟨l, txt⟩ := p
    obtain ⟨idx1, h1⟩ :=
      @processLink_isSome idx l txt (hp (l, txt) (List.mem_cons_self _ _))
    simp only [loadLoop]
    rw [h1]
    exact ih idx1 (fun q hq => hp q (List.mem_cons_of_mem _ hq))

/-- C3 counterexample: the markup `href="a#b#c">t</a>` matches the anchor
pattern, but its href holds two `#`, so `url, anchor = link.split('#')`
raises `ValueError` and the build fails — malformed markup is not always
tolerated silently. -/
theorem build_value_error :
    load_from_text "D/" "href=\"a#b#c\">t</a>" = none := rfl

/-- C3 amended: the build never fails on markup whose matched hrefs each
contain exactly one `#` (in particular, markup with no match at all
yields a valid, empty index); a matched href with more than one `#` makes
the build raise instead. -/
theorem build_total (doc_url s : String)
    (h : ∀ p ∈ findall s, (splitHash p.1).isSome = true) :
    ∃ idx, load_from_text doc_url s = some idx :=
  loadLoop_total (findall s) ⟨doc_url, []⟩ h

/-- C3 witness: a single well-formed anchor builds successfully. -/
theorem build_total_witness :
    ∃ idx, load_from_text "D/" "href=\"a#b\">t</a>" = some idx :=
  build_total "D/" "href=\"a#b\">t</a>" (by decide)

/-! ## Claim C10: shape of the matched links -/

theorem tryB_shape :
    ∀ (cs B txt rest : List Char), tryB cs = some (B, txt, rest) →
      B ≠ [] := by
  intro cs
  induction cs with
  | nil =>
    intro B t r h
    simp [tryB] at h
  | cons c cs ih =>
    intro B t r h
    unfold tryB at h
    by_cases hc : c = '\n'
    · rw [if_pos hc] at h
      cases h
    · rw [if_neg hc] at h
      split at h
      · split at h
        · cases h
          simp
        · obtain ⟨⟨B', t', r'⟩, hB', hf⟩ := Option.map_eq_some'.1 h
          cases hf
          simp
      · obtain ⟨⟨B', t', r'⟩, hB', hf⟩ := Option.map_eq_some'.1 h
        cases hf
        simp

theorem tryA_shape :
    ∀ (cs A B txt rest : List Char), tryA cs = some (A, B, txt, rest) →
      A ≠ [] ∧ B ≠ [] := by
  intro cs
  induction cs with
  | nil =>
    intro A B t r h
    simp [tryA] at h
  | cons c cs ih =>
    intro A B t r h
    unfold tryA at h
    by_cases hc : c = '\n'
    · rw [if_pos hc] at h
      cases h
    · rw [if_neg hc] at h
      split at h
      · rename_i cs' heq
        split at h
        · rename_i b' t' r' hB
          cases h
          exact ⟨by simp, tryB_shape _ _ _ _ hB⟩
        · obtain ⟨⟨A', B', t', r'⟩, hA', hf⟩ := Option.map_eq_some'.1 h
          cases hf
          obtain ⟨_, hB⟩ := ih _ _ _ _ hA'
          exact ⟨by simp, hB⟩
      · obtain ⟨⟨A', B', t', r'⟩, hA', hf⟩ := Option.map_eq_some'.1 h
        cases hf
        obtain ⟨_, hB⟩ := ih _ _ _ _ hA'
        exact ⟨by simp, hB⟩

theorem matchAnchor_shape {cs link txt rest : List Char}
    (h : matchAnchor cs = some (link, txt, rest)) :
    ∃ A B, link = A ++ '#' :: B ∧ A ≠ [] ∧ B ≠ [] := by
  unfold matchAnchor at h
  split at h
  · obtain ⟨⟨A, B, t', r'⟩, hA, hf⟩ := Option.map_eq_some'.1 h
    cases hf
    obtain ⟨h1, h2⟩ := tryA_shape _ _ _ _ _ hA
    exact ⟨A, B, rfl, h1, h2⟩
  · cases h

theorem findallAux_shape :
    ∀ (n : Nat) (cs lc tc : List Char), (lc, tc) ∈ findallAux n cs →
      ∃ A B, lc = A ++ '#' :: B ∧ A ≠ [] ∧ B ≠ [] := by
  intro n
  induction n with
  | zero =>
    intro cs lc tc h
    simp [findallAux] at h
  | succ n ih =>
    intro cs lc tc h
    cases cs with
    | nil => simp [findallAux] at h
    | cons c cs =>
      unfold findallAux at h
      split at h
      · rename_i link txt rest hm
        cases h with
        | head => exact matchAnchor_shape hm
        | tail _ h => exact ih _ _ _ h
      · exact ih _ _ _ h

theorem findall_shape {s : String} {p : String × String}
    (h : p ∈ findall s) :
    ∃ A B, p.1.data = A ++ '#' :: B ∧ A ≠ [] ∧ B ≠ [] := by
  unfold findall at h
  obtain ⟨⟨lc, tc⟩, hmem, hf⟩ := List.mem_map.1 h
  obtain ⟨A, B, h1, h2, h3⟩ := findallAux_shape _ _ _ _ hmem
  refine ⟨A, B, ?_, h2, h3⟩
  rw [← hf]
  exact h1

/-- The first element surviving `dropWhile` falsifies the predicate. -/
theorem dropWhile_head_false {α : Type} {p : α → Bool} :
    ∀ {l : List α} {c : α} {t : List α},
      l.dropWhile p = c :: t → p c = false := by
  intro l
  induction l with
  | nil =>
    intro c t h
    simp [List.dropWhile] at h
  | cons x xs ih =>
    intro c t h
    rw [List.dropWhile_cons] at h
    by_cases hx : p x = true
    · rw [if_pos hx] at h
      exact ih h
    · rw [if_neg hx] at h
      cases h
      simpa using hx

/-- A successful `#`-split of a link of the matched shape has non-empty
url and anchor parts. -/
theorem splitHash_of_shape {A B : List Char} (hA : A ≠ []) (hB : B ≠ [])
    {u a : String}
    (h : splitHash (String.mk (A ++ '#' :: B)) = some (u, a)) :
    u ≠ "" ∧ a ≠ "" := by
  simp only [splitHash] at h
  split at h
  case _ rest heq =>
    by_cases hmem : '#' ∈ A
    · exfalso
      have hdropA : A.dropWhile (fun c => decide (c ≠ '#')) ≠ [] := by
        intro hd
        have := List.dropWhile_eq_nil_iff.1 hd '#' hmem
        simp at this
      obtain ⟨c0, A2, hA2⟩ := List.exists_cons_of_ne_nil hdropA
      have hc0 : c0 = '#' := by
        have := dropWhile_head_false hA2
        simpa using this
      subst hc0
      have hdrop : (A ++ '#' :: B).dropWhile (fun c => decide (c ≠ '#')) =
          '#' :: (A2 ++ '#' :: B) := by
        rw [List.dropWhile_append, hA2]
        simp
      rw [hdrop] at heq
      have hrest : rest = A2 ++ '#' :: B := by
        injection heq with _ h2
        exact h2.symm
      rw [if_pos (by
        rw [hrest]
        exact List.elem_eq_true_of_mem (by simp))] at h
      cases h
    · have hall : ∀ x ∈ A, (fun c => decide (c ≠ '#')) x = true := by
        intro x hx
        simp only [ne_eq, decide_eq_true_eq]
        intro he
        exact hmem (he ▸ hx)
      have htake : (A ++ '#' :: B).takeWhile (fun c => decide (c ≠ '#')) =
          A := by
        rw [List.takeWhile_append]
        rw [if_pos (by rw [List.takeWhile_eq_self_iff.2 hall])]
        simp [List.takeWhile]
      have hdrop : (A ++ '#' :: B).dropWhile (fun c => decide (c ≠ '#')) =
          '#' :: B := by
        rw [List.dropWhile_append]
        rw [List.dropWhile_eq_nil_iff.2 hall]
        simp [List.dropWhile]
      rw [hdrop] at heq
      have hrest : rest = B := by
        injection heq with _ h2
        exact h2.symm
      rw [hrest] at h
      by_cases hBc : B.contains '#' = true
      · rw [if_pos hBc] at h
        cases h
      · rw [if_neg hBc] at h
        rw [htake] at h
        have hu : u = String.mk A := by
          cases h
          rfl
        have ha : a = String.mk B := by
          cases h
          rfl

        constructor
        · rw [hu]
          intro he
          exact hA (congrArg String.data he)
        · rw [ha]
          intro he
          exact hB (congrArg String.data he)
  case _ =>
    cases h

/-- C10: `link_weight` is partial — on an empty link Python divides by
`math.sqrt(0)` and raises `ZeroDivisionError` (the checked weight is
`none`) — but the error branch is unreachable during a build: every
parsed href is non-empty, and whenever its `#`-split succeeds the url
part passed to `register` is non-empty as well, so the checked weight is
defined at every link the build registers. -/
theorem link_weight_zero_div_unreachable :
    link_weight_checked "" = none ∧
    ∀ (s : String), ∀ p ∈ findall s,
      (link_weight_checked p.1).isSome = true ∧
      ∀ u a, splitHash p.1 = some (u, a) →
        (link_weight_checked u).isSome = true := by
  refine ⟨rfl, ?_⟩
  intro s p hp
  obtain ⟨A, B, hshape, hA, hB⟩ := findall_shape hp
  have hlen : p.1.length ≠ 0 := by
    show p.1.data.length ≠ 0
    rw [hshape]
    simp
  constructor
  · unfold link_weight_checked
    rw [if_neg hlen]
    rfl
  · intro u a hsplit
    have hmk : String.mk p.1.data = p.1 := rfl
    rw [← hmk, hshape] at hsplit
    obtain ⟨hu, _⟩ := splitHash_of_shape hA hB hsplit
    have hul : u.length ≠ 0 := by
      show u.data.length ≠ 0
      intro he
      exact hu (String.ext_iff.2 (List.length_eq_zero.1 he))
    unfold link_weight_checked
    rw [if_neg hul]
    rfl

/-- C10 witness: the parsed link `"a#b"` and its url part have defined
checked weights. -/
theorem link_weight_zero_div_unreachable_witness :
    (link_weight_checked (("a#b", "t") : String × String).1).isSome = true ∧
    ∀ u a, splitHash (("a#b", "t") : String × String).1 = some (u, a) →
      (link_weight_checked u).isSome = true :=
  link_weight_zero_div_unreachable.2 "href=\"a#b\">t</a>" ("a#b", "t")
    (by decide)

/-! ## Lemmas about `registerUnder` and the build -/

/-- The single workhorse equation for `registerUnder` lookups. -/
theorem registerUnder_lookup_eq (idx : PydocIndex) (kw l k : String) :
    dictLookup (registerUnder idx kw l).index k =
      if lowerStr kw = k
      then some ((match dictLookup idx.index (lowerStr kw) with
                  | some e => e
                  | none => mkEntry (lowerStr kw)).register l)
      else dictLookup idx.index k := by
  simp only [registerUnder]
  rw [dictLookup_dictInsert]

theorem registerUnder_doc_url (idx : PydocIndex) (kw l : String) :
    (registerUnder idx kw l).doc_url = idx.doc_url := rfl

theorem indexWF_registerUnder {idx : PydocIndex} (kw l : String)
    (h : IndexWF idx) : IndexWF (registerUnder idx kw l) := by
  intro k e he
  rw [registerUnder_lookup_eq] at he
  by_cases heq : lowerStr kw = k
  · rw [if_pos heq] at he
    cases he
    exact register_best_isSome _ _
  · rw [if_neg heq] at he
    exact h _ _ he

theorem indexWF_foldl_registerUnder (l : String) (keys : List String) :
    ∀ idx : PydocIndex, IndexWF idx →
      IndexWF (keys.foldl (fun ix c => registerUnder ix c l) idx) := by
  induction keys with
  | nil => exact fun idx h => h
  | cons y t ih =>
    intro idx h
    exact ih _ (indexWF_registerUnder y l h)

theorem doc_url_foldl_registerUnder (l : String) (keys : List String) :
    ∀ idx : PydocIndex,
      (keys.foldl (fun ix c => registerUnder ix c l) idx).doc_url =
        idx.doc_url := by
  induction keys with
  | nil => exact fun idx => rfl
  | cons y t ih =>
    intro idx
    rw [List.foldl_cons, ih, registerUnder_doc_url]

theorem processLink_WF {idx idx' : PydocIndex} {l t : String}
    (h : IndexWF idx) (hp : processLink idx l t = some idx') :
    IndexWF idx' ∧ idx'.doc_url = idx.doc_url := by
  unfold processLink at hp
  cases hs : splitHash l with
  | none => rw [hs] at hp; cases hp
  | some ua =>
    obtain ⟨url, anchor⟩ := ua
    rw [hs] at hp
    simp only [Option.some.injEq] at hp
    subst hp
    have h1 := indexWF_foldl_registerUnder l (suffixKeys anchor) idx h
    have hd1 := doc_url_foldl_registerUnder l (suffixKeys anchor) idx
    cases hn : pageSearch1 url with
    | none =>
      exact ⟨indexWF_registerUnder _ _ h1, by
        show (registerUnder _ t l).doc_url = idx.doc_url
        rw [registerUnder_doc_url]
        exact hd1⟩
    | some name =>
      refine ⟨indexWF_registerUnder _ _ (indexWF_registerUnder _ _ h1), ?_⟩
      show (registerUnder (registerUnder _ name url) t l).doc_url = idx.doc_url
      rw [registerUnder_doc_url, registerUnder_doc_url]
      exact hd1

theorem loadLoop_WF (prs : List (String × String)) :
    ∀ idx idx' : PydocIndex, IndexWF idx → loadLoop prs idx = some idx' →
      IndexWF idx' ∧ idx'.doc_url = idx.doc_url := by
  induction prs with
  | nil =>
    intro idx idx' h hl
    cases hl
    exact ⟨h, rfl⟩
  | cons p t ih =>
    intro idx idx' h hl
    obtain ⟨l, txt⟩ := p
    simp only [loadLoop] at hl
    cases hp : processLink idx l txt with
    | none => rw [hp] at hl; cases hl
    | some idx1 =>
      rw [hp] at hl
      obtain ⟨hw1, hd1⟩ := processLink_WF h hp
      obtain ⟨hw2, hd2⟩ := ih idx1 idx' hw1 hl
      exact ⟨hw2, by rw [hd2, hd1]⟩

theorem load_from_text_WF {doc_url s : String} {idx : PydocIndex}
    (h : load_from_text doc_url s = some idx) :
    IndexWF idx ∧ idx.doc_url = doc_url := by
  have h0 : IndexWF ⟨doc_url, []⟩ := by
    intro k e he
    simp [dictLookup] at he
  exact loadLoop_WF (findall s) ⟨doc_url, []⟩ idx h0 h

/-! ## Claim C9 -/

/-- C9: on a built index, for a keyword whose lower-casing is not an
override key, `search` returns `none` (not-found is an absence value,
never a raised fault) when the lower-cased keyword is absent from the
built mapping, and `doc_url ++ best_link` of its entry when present. -/
theorem search_contract (doc_url s : String) (idx : PydocIndex)
    (hload : load_from_text doc_url s = some idx) (k : String)
    (hk : lowerStr k ≠ "pip") :
    (dictLookup idx.index (lowerStr k) = none → idx.search k = none) ∧
    (∀ e, dictLookup idx.index (lowerStr k) = some e →
      ∃ b, e.best_link = some b ∧ idx.search k = some (doc_url ++ b)) := by
  obtain ⟨hwf, hdu⟩ := load_from_text_WF hload
  have hkp : k ≠ "pip" := by
    intro he
    exact hk (by rw [he]; rfl)
  have hhard : dictLookup hardcoded k = none := by
    simp [hardcoded, dictLookup]
    exact fun he => hkp he.symm
  constructor
  · intro hnone
    unfold PydocIndex.search
    rw [hhard, hnone]
  · intro e he
    obtain ⟨b, hb⟩ := hwf _ _ he
    refine ⟨b, hb, ?_⟩
    unfold PydocIndex.search
    rw [hhard, he]
    show Option.map (fun b => idx.doc_url ++ b) e.best_link =
      some (doc_url ++ b)
    rw [hb, hdu]
    rfl

/-- C9 witness: on the empty build, the unknown keyword
`"zzz_not_a_real_keyword"` is reported as `none`. -/
theorem search_contract_witness :
    (dictLookup (PydocIndex.mk "D/" []).index
        (lowerStr "zzz_not_a_real_keyword") = none →
      (PydocIndex.mk "D/" []).search "zzz_not_a_real_keyword" = none) ∧
    (∀ e, dictLookup (PydocIndex.mk "D/" []).index
        (lowerStr "zzz_not_a_real_keyword") = some e →
      ∃ b, e.best_link = some b ∧
        (PydocIndex.mk "D/" []).search "zzz_not_a_real_keyword" =
          some ("D/" ++ b)) :=
  search_contract "D/" "" (PydocIndex.mk "D/" []) rfl
    "zzz_not_a_real_keyword" (by decide)

/-! ## Claim C2: suffix keys of an anchor -/

theorem allBest_registerUnder {idx : PydocIndex} {link : String}
    (kw : String) (h : AllBest idx link) :
    AllBest (registerUnder idx kw link) link := by
  intro k e he
  rw [registerUnder_lookup_eq] at he
  by_cases heq : lowerStr kw = k
  · rw [if_pos heq] at he
    cases he
    cases hl : dictLookup idx.index (lowerStr kw) with
    | none => rw [register_best_none link rfl]
    | some e0 => exact register_best_same (h _ _ hl)
  · rw [if_neg heq] at he
    exact h _ _ he

theorem allBest_foldl (link : String) (keys : List String) :
    ∀ idx, AllBest idx link →
      AllBest (keys.foldl (fun ix c => registerUnder ix c link) idx) link := by
  induction keys with
  | nil => exact fun idx h => h
  | cons y t ih =>
    intro idx h
    exact ih _ (allBest_registerUnder y h)

/-- Registering `link` again (under any keyword) preserves "the entry at
`lowerStr k` exists with best link `link`". -/
theorem reaches_registerUnder {idx : PydocIndex} {link k : String}
    (kw : String)
    (h : ∃ e, dictLookup idx.index (lowerStr k) = some e ∧
      e.best_link = some link) :
    ∃ e, dictLookup (registerUnder idx kw link).index (lowerStr k) = some e ∧
      e.best_link = some link := by
  obtain ⟨e, he, hb⟩ := h
  rw [registerUnder_lookup_eq]
  by_cases heq : lowerStr kw = lowerStr k
  · rw [if_pos heq, heq, he]
    exact ⟨e.register link, rfl, register_best_same hb⟩
  · rw [if_neg heq]
    exact ⟨e, he, hb⟩

theorem reaches_foldl (link k : String) (keys : List String) :
    ∀ idx, (∃ e, dictLookup idx.index (lowerStr k) = some e ∧
        e.best_link = some link) →
      ∃ e, dictLookup
          ((keys.foldl (fun ix c => registerUnder ix c link) idx).index)
          (lowerStr k) = some e ∧ e.best_link = some link := by
  induction keys with
  | nil => exact fun idx h => h
  | cons y t ih =>
    intro idx h
    exact ih _ (reaches_registerUnder y h)

/-- After registering `link` under the keyword `kw` of an all-`link`
index, the entry at `lowerStr kw` exists with best link `link`. -/
theorem reaches_self {idx : PydocIndex} {link : String} (kw : String)
    (hAll : AllBest idx link) :
    ∃ e, dictLookup (registerUnder idx kw link).index (lowerStr kw) = some e ∧
      e.best_link = some link := by
  rw [registerUnder_lookup_eq, if_pos rfl]
  cases he : dictLookup idx.index (lowerStr kw) with
  | none =>
    refine ⟨_, rfl, ?_⟩
    rw [register_best_none link rfl]
  | some e =>
    exact ⟨_, rfl, register_best_same (hAll _ _ he)⟩

theorem reaches_foldl_mem (link : String) (keys : List String) :
    ∀ idx, AllBest idx link → ∀ k ∈ keys,
      ∃ e, dictLookup
          ((keys.foldl (fun ix c => registerUnder ix c link) idx).index)
          (lowerStr k) = some e ∧ e.best_link = some link := by
  induction keys with
  | nil =>
    intro idx _ k hk
    cases hk
  | cons y t ih =>
    intro idx hAll k hk
    simp only [List.foldl_cons]
    cases hk with
    | head => exact reaches_foldl link y t _ (reaches_self y hAll)
    | tail _ hk => exact ih _ (allBest_registerUnder y hAll) k hk

/-- Registering a different link under a key that differs from
`lowerStr k` leaves the entry at `lowerStr k` untouched. -/
theorem reaches_other {idx : PydocIndex} {link k : String} (kw l' : String)
    (hne : lowerStr kw ≠ lowerStr k)
    (h : ∃ e, dictLookup idx.index (lowerStr k) = some e ∧
      e.best_link = some link) :
    ∃ e, dictLookup (registerUnder idx kw l').index (lowerStr k) = some e ∧
      e.best_link = some link := by
  obtain ⟨e, he, hb⟩ := h
  rw [registerUnder_lookup_eq, if_neg hne]
  exact ⟨e, he, hb⟩

/-- C2 counterexample: in the index built from the single anchor
`href="foo.html#foo">x</a>`, the suffix key `foo` of the fragment does
not map to the fragment's link `foo.html#foo`: the page-name
registration for the same key wins with the shorter link `foo.html`. -/
theorem suffix_key_lost_to_page_entry :
    ((load_from_text "D/" "href=\"foo.html#foo\">x</a>").bind
        (fun idx => (dictLookup idx.index "foo").bind
          (fun e => e.best_link))) = some "foo.html" ∧
      ("foo.html" : String) ≠ "foo.html#foo" := by
  have hv1 : visit_weight "foo.html#foo" = 0 := by
    unfold visit_weight
    rw [show page0 "foo.html#foo" = "foo.html" from rfl]
    rw [show dictLookup weights "foo.html" = none from rfl]
    rfl
  have hv2 : visit_weight "foo.html" = 0 := by
    unfold visit_weight
    rw [show page0 "foo.html" = "foo.html" from rfl]
    rw [show dictLookup weights "foo.html" = none from rfl]
    rfl
  have hl1 : ((("foo.html#foo" : String).length : ℕ) : ℝ) = (12 : ℝ) := by
    norm_num [show ("foo.html#foo" : String).length = 12 from rfl]
  have hl2 : ((("foo.html" : String).length : ℕ) : ℝ) = (8 : ℝ) := by
    norm_num [show ("foo.html" : String).length = 8 from rfl]
  have hgt : link_weight "foo.html" > link_weight "foo.html#foo" := by
    unfold link_weight
    rw [hv1, hv2, hl1, hl2]
    have h8 : (0 : ℝ) < Real.sqrt 8 := Real.sqrt_pos.2 (by norm_num)
    have h812 : Real.sqrt 8 < Real.sqrt 12 :=
      Real.sqrt_lt_sqrt (by norm_num) (by norm_num)
    have := one_div_lt_one_div_of_lt h8 h812
    linarith
  refine ⟨?_, by decide⟩
  show ((if link_weight "foo.html" >
        (dictLookup (dictInsert
            [("foo.html#foo", link_weight "foo.html#foo")]
            "foo.html" (link_weight "foo.html")) "foo.html#foo").getD 0
      then (⟨"foo",
          [("foo.html#foo", link_weight "foo.html#foo"),
           ("foo.html", link_weight "foo.html")],
          some "foo.html"⟩ : PydocIndexEntry)
      else ⟨"foo",
          [("foo.html#foo", link_weight "foo.html#foo"),
           ("foo.html", link_weight "foo.html")],
          some "foo.html#foo"⟩).best_link) = some "foo.html"
  have hgd : (dictLookup (dictInsert
      [("foo.html#foo", link_weight "foo.html#foo")]
      "foo.html" (link_weight "foo.html")) "foo.html#foo").getD 0 =
      link_weight "foo.html#foo" := by
    rw [show dictInsert [("foo.html#foo", link_weight "foo.html#foo")]
        "foo.html" (link_weight "foo.html") =
        [("foo.html#foo", link_weight "foo.html#foo"),
         ("foo.html", link_weight "foo.html")] from by
      simp [dictInsert]]
    rw [show dictLookup
        [("foo.html#foo", link_weight "foo.html#foo"),
         ("foo.html", link_weight "foo.html")] "foo.html#foo" =
        some (link_weight "foo.html#foo") from by
      simp [dictLookup]]
    rfl
  rw [hgd, if_pos hgt]

/-- C2 amended: for a parsed anchor `link = url#anchor`, the builder
registers the link under every suffix of the anchor's chunk sequence
joined by `.`, and in an index built from markup whose only match is that
anchor, each of these keys maps (lower-cased, as all index keys are) to
an entry whose best link is the fragment's link — provided the page-name
key derived from the url part does not collide with a suffix key; its
absolute form is the base URL (`idx.doc_url = doc_url`) concatenated with
the link. -/
theorem suffix_keys_reach_link (doc_url markup link text url anchor : String)
    (hparse : findall markup = [(link, text)])
    (hsplit : splitHash link = some (url, anchor))
    (hfresh : pageKeyFresh url anchor = true) :
    ∃ idx, load_from_text doc_url markup = some idx ∧
      idx.doc_url = doc_url ∧
      ∀ k ∈ suffixKeys anchor, ∃ e,
        dictLookup idx.index (lowerStr k) = some e ∧
        e.best_link = some link := by
  have hAll0 : AllBest ⟨doc_url, []⟩ link := by
    intro k e he
    simp [dictLookup] at he
  have hreach1 := reaches_foldl_mem link (suffixKeys anchor) ⟨doc_url, []⟩ hAll0
  set idx1 := (suffixKeys anchor).foldl
    (fun ix c => registerUnder ix c link) ⟨doc_url, []⟩ with hidx1
  have hreach2 : ∀ k ∈ suffixKeys anchor, ∃ e,
      dictLookup (match pageSearch1 url with
        | some name => registerUnder idx1 name url
        | none => idx1).index (lowerStr k) = some e ∧
      e.best_link = some link := by
    cases hps : pageSearch1 url with
    | none => exact hreach1
    | some name =>
      intro k hk
      have hfr : lowerStr name ≠ lowerStr k := by
        unfold pageKeyFresh at hfresh
        rw [hps] at hfresh
        have := List.all_eq_true.1 hfresh k hk
        simp only [bne_iff_ne, ne_eq] at this
        exact fun he => this he.symm
      exact reaches_other name url hfr (hreach1 k hk)
  set idx2 := (match pageSearch1 url with
    | some name => registerUnder idx1 name url
    | none => idx1) with hidx2
  have hreach3 : ∀ k ∈ suffixKeys anchor, ∃ e,
      dictLookup (registerUnder idx2 text link).index (lowerStr k) = some e ∧
      e.best_link = some link := by
    intro k hk
    exact reaches_registerUnder text (hreach2 k hk)
  refine ⟨registerUnder idx2 text link, ?_, ?_, hreach3⟩
  · unfold load_from_text
    rw [hparse]
    show (match processLink ⟨doc_url, []⟩ link text with
      | none => none
      | some idx' => loadLoop [] idx') = some (registerUnder idx2 text link)
    unfold processLink
    rw [hsplit]
    rfl
  · rw [registerUnder_doc_url]
    cases hps : pageSearch1 url with
    | none =>
      rw [hidx2, hps]
      rw [hidx1]
      exact doc_url_foldl_registerUnder link (suffixKeys anchor) ⟨doc_url, []⟩
    | some name =>
      rw [hidx2, hps]
      show (registerUnder idx1 name url).doc_url = doc_url
      rw [registerUnder_doc_url, hidx1]
      exact doc_url_foldl_registerUnder link (suffixKeys anchor) ⟨doc_url, []⟩

/-- C2 witness at the anchor `library/sys.html#sys.exit` with text
`exit`: both suffix keys `exit` and `sys.exit` reach the link. -/
theorem suffix_keys_reach_link_witness :
    ∃ idx, load_from_text "D/"
        "href=\"library/sys.html#sys.exit\">exit</a>" = some idx ∧
      idx.doc_url = "D/" ∧
      ∀ k ∈ suffixKeys "sys.exit", ∃ e,
        dictLookup idx.index (lowerStr k) = some e ∧
        e.best_link = some "library/sys.html#sys.exit" :=
  suffix_keys_reach_link "D/" "href=\"library/sys.html#sys.exit\">exit</a>"
    "library/sys.html#sys.exit" "exit" "library/sys.html" "sys.exit"
    (by decide) (by decide) (by decide)

end Pydoc
